import Mathlib

/-!
Verification of the variation-graph distance index specification (vg).

The distance-index implementation itself is not present in the repository
fragment (src/src/distance.hpp only declares the classes), so the distance
components below are modelled from the specification, as the doc comments
note.  The GFA name translator (src/src/gfa.cpp) is embedded directly from
its source.
-/

namespace VG

/-! ### List minimum / maximum helpers -/

/-- Minimum of a list of naturals, `none` for the empty list. -/
def minD : List Nat → Option Nat
  | [] => none
  | a :: rest =>
    match minD rest with
    | none => some a
    | some b => some (min a b)

/-- Maximum of a list of naturals, `none` for the empty list. -/
def maxD : List Nat → Option Nat
  | [] => none
  | a :: rest =>
    match maxD rest with
    | none => some a
    | some b => some (max a b)

/-! ### The bidirected sequence graph

Modelled from the spec (sections 3 and 6): a graph node has an integer id,
a length, and two sides; a directed visit is a pair of a node id and an
orientation flag.  Following an edge from visit `a` to visit `b` also
permits the traversal from the flip of `b` to the flip of `a`.
-/

/-- A directed visit: node id paired with an orientation flag
(`true` = reverse traversal, entering the node's right side). -/
abbrev Visit := Nat × Bool

/-- Reverse the orientation of a visit. -/
def vflip (v : Visit) : Visit := (v.1, !v.2)

/-- Modelled from the spec: the immutable directed sequence graph supplied
through the graph handle contract (spec section 6): a node list, a length for
each node, and a list of edges between directed visits. -/
structure BiGraph where
  nodes : List Nat
  len : Nat → Nat
  edges : List (Visit × Visit)

/-- All directed visits of the graph's nodes. -/
def allVisits (g : BiGraph) : List Visit :=
  g.nodes.map (fun n => (n, false)) ++ g.nodes.map (fun n => (n, true))

/-- Adjacency between directed visits: an edge may be traversed in its
stated direction, or in the opposite direction with both visits flipped
(the bidirected edge semantics of the graph handle contract). -/
def adj (g : BiGraph) (a b : Visit) : Bool :=
  g.edges.contains (a, b) || g.edges.contains (vflip b, vflip a)

/-- A position on a node: node id, offset and orientation.  The offset is
measured 0-based along the traversal direction selected by `rev`, as for
the source's pos_t, so that flipping a position mirrors its offset to the
node's other end (spec section 8, property 1). -/
structure Pos where
  node : Nat
  off : Nat
  rev : Bool
deriving DecidableEq

/-- The directed visit a position lies on. -/
def Pos.visit (p : Pos) : Visit := (p.node, p.rev)

/-- Modelled from the spec (section 8, property 1): flip reverses a
position's orientation flag and converts its offset to be measured from
the node's other end. -/
def flipPos (g : BiGraph) (p : Pos) : Pos :=
  ⟨p.node, g.len p.node - 1 - p.off, !p.rev⟩

/-- A position is valid when its node is known to the graph and its offset
lies strictly within the node's length. -/
def ValidPos (g : BiGraph) (p : Pos) : Prop :=
  p.node ∈ g.nodes ∧ p.off < g.len p.node

instance (g : BiGraph) (p : Pos) : Decidable (ValidPos g p) := by
  unfold ValidPos
  infer_instance

/-- All walks of at most `fuel + 1` visits that start at visit `v` and step
along graph adjacencies through graph visits. -/
def walksFrom (g : BiGraph) (v : Visit) : Nat → List (List Visit)
  | 0 => [[v]]
  | fuel + 1 =>
    [v] :: ((allVisits g).filter (fun w => adj g v w)).flatMap
      (fun w => (walksFrom g w fuel).map (fun ws => v :: ws))

/-- Chained walks: every consecutive pair of visits is adjacent. -/
def Chained (g : BiGraph) (w : List Visit) : Prop :=
  List.Chain' (fun a b => adj g a b = true) w

/-- Sum of the node lengths of every visit of a list except the last one. -/
def midSum (g : BiGraph) : List Visit → Nat
  | [] => 0
  | [_] => 0
  | a :: b :: rest => g.len a.1 + midSum g (b :: rest)

/-- Sum of the node lengths of every visit of a list. -/
def totSum (g : BiGraph) (w : List Visit) : Nat :=
  (w.map (fun v => g.len v.1)).sum

/-- Modelled from the spec (section 4.4 and scenarios S1-S2): the number of
bases traversed by a walk from position `p1` to position `p2`, counting the
first node from `p1` inclusive and the last node up to `p2` exclusive.
`none` when the walk cannot realize travel from `p1` to `p2`. -/
def walkCost (g : BiGraph) (p1 p2 : Pos) (w : List Visit) : Option Nat :=
  match w with
  | [] => none
  | [_] => if p1.off ≤ p2.off then some (p2.off - p1.off) else none
  | _ :: rest => some ((g.len p1.node - p1.off) + midSum g rest + p2.off)

/-- The search depth used for walk enumeration: a shortest walk never
repeats a directed visit except possibly at its two ends, so walks of at
most `2 * |nodes| + 1` visits suffice. -/
def fuelOf (g : BiGraph) : Nat := 2 * g.nodes.length

/-- Costs of all enumerated walks from `p1` to `p2`. -/
def candidates (g : BiGraph) (p1 p2 : Pos) : List Nat :=
  (walksFrom g p1.visit (fuelOf g)).filterMap
    (fun w => if w.getLast? = some p2.visit then walkCost g p1 p2 w else none)

/-- Modelled from the spec (sections 4.4, 6 and 8, property 5): the exact
minimum walk distance between two positions, the sentinel -1 when the
second position is unreachable from the first. -/
def minDistance (g : BiGraph) (p1 p2 : Pos) : Int :=
  match minD (candidates g p1 p2) with
  | none => -1
  | some m => (m : Int)

/-! ### Connected components and the maximum distance estimate

Modelled from the spec (section 4.5): nodes are grouped into connected
components by union-find over edges ignoring direction; the maximum
distance query returns the cap when the endpoints lie in different
components or share a component containing a short cycle, and otherwise
an upper bound on walk length truncated at the cap.
-/

/-- Undirected adjacency between nodes: some edge joins the two nodes in
either direction and orientation. -/
def nodeAdjB (g : BiGraph) (m n : Nat) : Bool :=
  g.edges.any (fun e => (e.1.1 == m && e.2.1 == n) || (e.1.1 == n && e.2.1 == m))

/-- One expansion step of undirected reachability. -/
def reachStep (g : BiGraph) (s : List Nat) : List Nat :=
  (s ++ g.nodes.filter (fun n => s.any (fun m => nodeAdjB g m n))).dedup

/-- Nodes reachable from `n` ignoring edge direction, within `k` steps. -/
def reachSet (g : BiGraph) (n : Nat) : Nat → List Nat
  | 0 => [n]
  | k + 1 => reachStep g (reachSet g n k)

/-- Modelled from the spec (section 4.5): whether two nodes lie in the same
connected component of the graph. -/
def sameComponent (g : BiGraph) (m n : Nat) : Bool :=
  (reachSet g m (2 * g.nodes.length + 1)).contains n

/-- Whether some cycle through visit `v` has total length at most the cap. -/
def shortCycleAt (g : BiGraph) (cap : Nat) (v : Visit) : Bool :=
  (walksFrom g v (fuelOf g)).any (fun w =>
    decide (2 ≤ w.length) && (w.getLast? == some v) &&
      (match walkCost g ⟨v.1, 0, v.2⟩ ⟨v.1, 0, v.2⟩ w with
        | some c => decide (c ≤ cap)
        | none => false))

/-- Whether the component of node `n` contains a cycle of length at most
the cap (the cyclic-component test of spec section 4.5). -/
def hasShortCycleComp (g : BiGraph) (cap : Nat) (n : Nat) : Bool :=
  (reachSet g n (2 * g.nodes.length + 1)).any (fun m =>
    shortCycleAt g cap (m, false) || shortCycleAt g cap (m, true))

/-- Modelled from the spec (sections 4.5 and 6): the maximum distance
estimate.  Returns the cap for endpoints in different components or in a
component with a short cycle, and otherwise an upper bound on the walk
length between the positions, truncated at the cap; the result never
exceeds the cap. -/
def maxDistance (g : BiGraph) (cap : Nat) (p1 p2 : Pos) : Int :=
  if sameComponent g p1.node p2.node = false then (cap : Int)
  else if hasShortCycleComp g cap p1.node then (cap : Int)
  else
    match maxD (candidates g p1 p2) with
    | none => (cap : Int)
    | some m => min (cap : Int) (m : Int)

/-! ### SnarlIndex distance operations

Modelled from the spec (section 4.1): the per-snarl operations are the
distances in the snarl's net graph, measured between the beginnings of the
indexed visits' nodes.
-/

/-- Modelled from the spec: SnarlIndex snarl distance, the minimum walk
distance from the beginning of the node of visit `a` to the beginning of
the node of visit `b` in the snarl's net graph `g`. -/
def snarlDistance (g : BiGraph) (a b : Visit) : Int :=
  minDistance g ⟨a.1, 0, a.2⟩ ⟨b.1, 0, b.2⟩

/-- Modelled from the spec: SnarlIndex node length, from the graph. -/
def nodeLength (g : BiGraph) (n : Nat) : Int := (g.len n : Int)

/-- Modelled from the spec: SnarlIndex snarl length, the minimum walk
distance from the snarl start boundary to the far end of the end boundary
node (one past its last base). -/
def snarlLength (g : BiGraph) (s e : Visit) : Int :=
  let d := minDistance g ⟨s.1, 0, s.2⟩ ⟨e.1, g.len e.1 - 1, e.2⟩
  if d = -1 then -1 else d + 1

/-- Modelled from the spec: SnarlIndex short snarl distance, the minimum
walk distance from the end of the node of visit `a` (one past its last
base) to the beginning of the node of visit `b`. -/
def snarlDistanceShort (g : BiGraph) (a b : Visit) : Int :=
  let d := minDistance g ⟨a.1, g.len a.1 - 1, a.2⟩ ⟨b.1, 0, b.2⟩
  if d = -1 then -1 else d - 1

/-! ### Serialization of the index

Modelled from the spec (section 4.6) and the vector layouts documented in
src/src/distance.hpp: the index serializes as a header followed by the
node-to-snarl vector, one block per snarl
(count, start id, end id, snarl length, visit ids, packed distances),
one block per chain (count, node ids, prefix sums, forward and reverse
loop distances), and the max-distance block.  The stream is modelled as a
list of integers.
-/

/-- Stored contents of one SnarlIndex, as laid out by SnarlIndex toVector
(src/src/distance.hpp lines 62-70): start and end node ids, the snarl
length, the visit ids in index order (sign encodes orientation) and the
packed distance table of `k * k` biased entries. -/
structure SnarlIndexData where
  startId : Int
  endId : Int
  snarlLen : Int
  visits : List Int
  dists : List Int
deriving DecidableEq

/-- Well-formedness: the distance table is a full square matrix over the
indexed visits. -/
def SnarlIndexData.wf (s : SnarlIndexData) : Prop :=
  s.dists.length = s.visits.length * s.visits.length

/-- Serialized form of one snarl block. -/
def serializeSnarl (s : SnarlIndexData) : List Int :=
  (s.visits.length : Int) :: s.startId :: s.endId :: s.snarlLen ::
    (s.visits ++ s.dists)

/-- Parse one snarl block, returning the remaining stream. -/
def parseSnarl (v : List Int) : Option (SnarlIndexData × List Int) :=
  match v with
  | k :: a :: b :: c :: rest =>
    let kn := k.toNat
    if kn + kn * kn ≤ rest.length then
      some (⟨a, b, c, rest.take kn, (rest.drop kn).take (kn * kn)⟩,
        (rest.drop kn).drop (kn * kn))
    else none
  | _ => none

/-- Stored contents of one ChainIndex, as laid out by ChainIndex toVector
(src/src/distance.hpp lines 144-148): the boundary node ids, the prefix
sums to each boundary node side plus the trailing chain length, and the
forward and reverse loop distances of each boundary node. -/
structure ChainIndexData where
  nodeIds : List Int
  prefSum : List Int
  loopFd : List Int
  loopRev : List Int
deriving DecidableEq

/-- Well-formedness of a chain block (spec section 4.2): two prefix sums
per snarl plus the trailing chain length, one forward and one reverse loop
distance per boundary node. -/
def ChainIndexData.wf (c : ChainIndexData) : Prop :=
  c.prefSum.length = 2 * c.nodeIds.length + 2 ∧
    c.loopFd.length = c.nodeIds.length ∧
    c.loopRev.length = c.nodeIds.length

/-- Serialized form of one chain block. -/
def serializeChain (c : ChainIndexData) : List Int :=
  (c.nodeIds.length : Int) ::
    (c.nodeIds ++ c.prefSum ++ c.loopFd ++ c.loopRev)

/-- Parse one chain block, returning the remaining stream. -/
def parseChain (v : List Int) : Option (ChainIndexData × List Int) :=
  match v with
  | m :: rest =>
    let mn := m.toNat
    if mn + (2 * mn + 2) + mn + mn ≤ rest.length then
      some (⟨rest.take mn,
        ((rest.drop mn).take (2 * mn + 2)),
        (((rest.drop mn).drop (2 * mn + 2)).take mn),
        ((((rest.drop mn).drop (2 * mn + 2)).drop mn).take mn)⟩,
        (((rest.drop mn).drop (2 * mn + 2)).drop mn).drop mn)
    else none
  | _ => none

/-- Serialized form of a length-tagged integer vector. -/
def serializeIntList (l : List Int) : List Int := (l.length : Int) :: l

/-- Parse a length-tagged integer vector. -/
def parseIntList (v : List Int) : Option (List Int × List Int) :=
  match v with
  | n :: rest =>
    let nn := n.toNat
    if nn ≤ rest.length then some (rest.take nn, rest.drop nn) else none
  | _ => none

/-- Parse one integer from the stream. -/
def parseInt (v : List Int) : Option (Int × List Int) :=
  match v with
  | x :: r => some (x, r)
  | [] => none

/-- Parse `n` consecutive blocks with a block parser. -/
def parseMany {α : Type} (p : List Int → Option (α × List Int)) :
    Nat → List Int → Option (List α × List Int)
  | 0, v => some ([], v)
  | n + 1, v =>
    (p v).bind fun xr =>
      (parseMany p n xr.2).map fun ysr => (xr.1 :: ysr.1, ysr.2)

/-- Stored contents of the whole distance index, following the block
structure of spec section 4.6 and the data members of DistanceIndex
(src/src/distance.hpp lines 250-276). -/
structure DistanceIndexData where
  minNodeId : Nat
  maxNodeId : Nat
  cap : Nat
  nodeToSnarl : List Int
  snarls : List SnarlIndexData
  chains : List ChainIndexData
  numCycles : Int
  numComponents : Int
  nodeToComponent : List Int
  minDistances : List Int
  maxDistances : List Int
deriving DecidableEq

/-- Well-formedness of the whole index: every block is well-formed. -/
def DistanceIndexData.wf (d : DistanceIndexData) : Prop :=
  (∀ s ∈ d.snarls, s.wf) ∧ (∀ c ∈ d.chains, c.wf)

/-- Modelled from the spec (section 4.6): serialize the index into an
integer stream. -/
def serializeIndex (d : DistanceIndexData) : List Int :=
  (d.minNodeId : Int) :: (d.maxNodeId : Int) :: (d.cap : Int) ::
    (d.snarls.length : Int) :: (d.chains.length : Int) ::
    (serializeIntList d.nodeToSnarl ++
      (d.snarls.map serializeSnarl).flatten ++
      (d.chains.map serializeChain).flatten ++
      d.numCycles :: d.numComponents ::
        (serializeIntList d.nodeToComponent ++
          serializeIntList d.minDistances ++
          serializeIntList d.maxDistances))

/-- Modelled from the spec (section 4.6): load an index from an integer
stream, failing on any inconsistent layout or trailing data. -/
def loadIndex (v : List Int) : Option DistanceIndexData :=
  (parseInt v).bind fun mn =>
  (parseInt mn.2).bind fun mx =>
  (parseInt mx.2).bind fun cp =>
  (parseInt cp.2).bind fun ns =>
  (parseInt ns.2).bind fun nc =>
  (parseIntList nc.2).bind fun nts =>
  (parseMany parseSnarl ns.1.toNat nts.2).bind fun sn =>
  (parseMany parseChain nc.1.toNat sn.2).bind fun ch =>
  (parseInt ch.2).bind fun cyc =>
  (parseInt cyc.2).bind fun comp =>
  (parseIntList comp.2).bind fun ntc =>
  (parseIntList ntc.2).bind fun mind =>
  (parseIntList mind.2).bind fun maxd =>
  if maxd.2 = [] then
    some ⟨mn.1.toNat, mx.1.toNat, cp.1.toNat, nts.1, sn.1, ch.1,
      cyc.1, comp.1, ntc.1, mind.1, maxd.1⟩
  else none

/-! ### The SnarlIndex distance table under construction

Modelled from the spec (sections 3 and 4.1): distances live in a packed
`k * k` table indexed through visit_to_index, stored unsigned with a +1
bias so that stored 0 means unreachable; insert_distance monotonically
tightens an entry.
-/

/-- The distance table of one SnarlIndex: the indexed visits in slot order
and the packed biased entries (stored value 0 = unreachable, stored value
`v + 1` = distance `v`). -/
structure SnarlTable where
  visits : List Visit
  dists : List Nat

/-- Slot of the ordered pair `(a, b)` in the packed table. -/
def tindex (t : SnarlTable) (a b : Visit) : Nat :=
  t.visits.indexOf a * t.visits.length + t.visits.indexOf b

/-- Raw biased entry stored for the pair `(a, b)`. -/
def storedAt (t : SnarlTable) (a b : Visit) : Nat :=
  t.dists.getD (tindex t a b) 0

/-- Decoded snarl distance for the pair `(a, b)`: -1 when unreachable. -/
def snarlDistOf (t : SnarlTable) (a b : Visit) : Int :=
  (storedAt t a b : Int) - 1

/-- Modelled from the spec (section 4.1): insert_distance keeps the minimum
of the existing entry and the new distance, treating the unreachable
sentinel as larger than every finite distance. -/
def insertDistance (t : SnarlTable) (a b : Visit) (dist : Nat) : SnarlTable :=
  let i := tindex t a b
  let old := t.dists.getD i 0
  let newv := if old = 0 then dist + 1 else min old (dist + 1)
  ⟨t.visits, t.dists.set i newv⟩

/-! ### The top-level query overloads

Modelled from the spec (sections 4.3, 4.4 and 6): the two-argument
min_distance overload looks the innermost snarls up in the node-to-snarl
index and delegates to the four-argument overload; the snarl arguments of
the latter only localize the search and do not change the result.
-/

/-- Modelled from the spec (section 4.3): signed start-node id of the snarl
containing a node, read from the node-to-snarl vector. -/
def snarlOf (d : DistanceIndexData) (id : Nat) : Int :=
  d.nodeToSnarl.getD (id - d.minNodeId) 0

/-- Modelled from the spec (section 6): the four-argument min_distance
overload; the snarl hints are an optimization only and the result is the
minimum walk distance. -/
def minDistanceSnarls (g : BiGraph) (s1 s2 : Int) (p1 p2 : Pos) : Int :=
  minDistance g p1 p2

/-- Modelled from the spec (sections 4.4 and 6): the two-argument
min_distance overload, which looks up each position's innermost snarl and
delegates to the four-argument overload. -/
def minDistanceQ (g : BiGraph) (d : DistanceIndexData) (p1 p2 : Pos) : Int :=
  minDistanceSnarls g (snarlOf d p1.node) (snarlOf d p2.node) p1 p2

/-! ### The GFA name translator

Embedded from src/src/gfa.cpp lines 11-62: GFAToPinchTranslator assigns a
positive numeric pinch thread name to every GFA string name, preferring
the numeric value of an all-digit name when it is positive and untaken.
-/

/-- State of a GFAToPinchTranslator (src/src/gfa.cpp lines 11-22):
the name map, the set of taken numbers, and the next free number. -/
structure TransState where
  name_to_name : List (String × Int)
  used : List Int
  next_unused : Int

/-- A fresh translator: no names assigned, next free number 1. -/
def initTrans : TransState := ⟨[], [], 1⟩

/-- Does the string consist only of digits (the numeric-name test applied
to GFA names by the translator)? -/
def is_number (s : String) : Bool := !s.data.isEmpty && s.data.all Char.isDigit

/-- Decimal value of an all-digit string, as std::stol reads it. -/
def stol (s : String) : Int :=
  Int.ofNat (s.data.foldl (fun acc c => 10 * acc + (c.toNat - 48)) 0)

/-- Lookup in the name map, first match wins. -/
def lookupName : List (String × Int) → String → Option Int
  | [], _ => none
  | p :: rest, name => if p.1 = name then some p.2 else lookupName rest name

/-- Embedded from GFAToPinchTranslator::translate (src/src/gfa.cpp lines
24-62).  A hit returns the recorded number.  Otherwise the preferred
number is the numeric value of an all-digit name, replaced by next_unused
when nonpositive or taken; the two next_unused updates of the source (the
post-increment and the budge past a larger read-in id) are combined into
one conditional. -/
def translate (st : TransState) (name : String) : Int × TransState :=
  match lookupName st.name_to_name name with
  | some v => (v, st)
  | none =>
    let a0 : Int := if is_number name then stol name else 0
    let assigned : Int :=
      if a0 ≤ 0 ∨ st.used.contains a0 = true then st.next_unused else a0
    let next1 : Int :=
      if a0 ≤ 0 ∨ st.used.contains a0 = true then st.next_unused + 1
      else st.next_unused
    let next2 : Int := if next1 ≤ assigned then assigned + 1 else next1
    (assigned, ⟨(name, assigned) :: st.name_to_name, assigned :: st.used,
      next2⟩)

/-- Translate a list of names in order, returning the final state. -/
def runTranslate (st : TransState) : List String → TransState
  | [] => st
  | n :: rest => runTranslate (translate st n).2 rest

/-- Invariant of translator states: the next free number is positive and
strictly above every taken number, every recorded number is taken, and no
number is recorded twice. -/
def Inv (st : TransState) : Prop :=
  1 ≤ st.next_unused ∧
    (∀ v ∈ st.used, 0 < v ∧ v < st.next_unused) ∧
    (∀ p ∈ st.name_to_name, p.2 ∈ st.used) ∧
    (st.name_to_name.map Prod.snd).Nodup

/-! ### Concrete instances

A linear three-node graph (scenario S1 of the spec), a disconnected
two-node graph (scenario S4), and small concrete index data, used to
instantiate the theorems above on explicit inputs.
-/

/-- Scenario S1: nodes 1 (5 bp), 2 (3 bp), 3 (4 bp) joined in a line. -/
def gLin : BiGraph :=
  ⟨[1, 2, 3], fun n => if n = 1 then 5 else if n = 2 then 3 else 4,
   [((1, false), (2, false)), ((2, false), (3, false))]⟩

/-- Scenario S4: two 3 bp nodes with no edges. -/
def gDis : BiGraph := ⟨[1, 2], fun _ => 3, []⟩

/-- A small concrete index over the S1 graph: one snarl block, one chain
block and a max-distance block. -/
def dEx : DistanceIndexData :=
  ⟨1, 3, 100, [1, 1, 1],
   [⟨1, 3, 12, [1, 3], [1, 9, 0, 13]⟩],
   [⟨[1, 3], [0, 5, 8, 12, 12, 12], [-1, -1], [-1, -1]⟩],
   0, 1, [0, 0, 0], [0, 0, 0], [8, 3, 4]⟩

/-- A small concrete snarl distance table over two visits. -/
def tEx : SnarlTable := ⟨[(1, false), (3, false)], [1, 9, 0, 13]⟩

instance (s : SnarlIndexData) : Decidable s.wf := by
  unfold SnarlIndexData.wf
  infer_instance

instance (c : ChainIndexData) : Decidable c.wf := by
  unfold ChainIndexData.wf
  infer_instance

instance (d : DistanceIndexData) : Decidable d.wf := by
  unfold DistanceIndexData.wf
  exact instDecidableAnd

/-! ### Theorems -/

theorem minD_eq_none : ∀ {l : List Nat}, minD l = none ↔ l = []
  | [] => by simp [minD]
  | a :: rest => by
    simp only [minD]
    cases h : minD rest <;> simp

theorem minD_spec : ∀ {l : List Nat} {m : Nat},
    minD l = some m ↔ m ∈ l ∧ ∀ x ∈ l, m ≤ x
  | [], m => by simp [minD]
  | a :: rest, m => by
    simp only [minD]
    cases h : minD rest with
    | none =>
      have hrest : rest = [] := minD_eq_none.mp h
      subst hrest
      constructor
      · rintro h'
        simp at h'
        subst h'
        simp
      · rintro ⟨hm, hle⟩
        simp at hm
        subst hm
        simp
    | some b =>
      have hb := (minD_spec (l := rest) (m := b)).mp h
      constructor
      · rintro h'
        simp only [Option.some.injEq] at h'
        subst h'
        constructor
        · rcases Nat.le_total a b with hab | hba
          · rw [min_eq_left hab]
            exact List.mem_cons_self a rest
          · rw [min_eq_right hba]
            exact List.mem_cons_of_mem a hb.1
        · intro x hx
          rcases List.mem_cons.mp hx with hx | hx
          · rw [hx]
            exact min_le_left a b
          · have := hb.2 x hx
            have := min_le_right a b
            omega
      · rintro ⟨hm, hle⟩
        have h1 : m ≤ a := hle a (List.mem_cons_self a rest)
        have h2 : m ≤ b := hle b (List.mem_cons_of_mem a hb.1)
        have h3 : a ≤ m ∨ b ≤ m := by
          rcases List.mem_cons.mp hm with hm | hm
          · exact Or.inl (le_of_eq hm.symm)
          · exact Or.inr (hb.2 m hm)
        simp only [Option.some.injEq]
        rcases h3 with h3 | h3
        · rcases Nat.le_total a b with hab | hba
          · rw [min_eq_left hab]; omega
          · rw [min_eq_right hba]; omega
        · rcases Nat.le_total a b with hab | hba
          · rw [min_eq_left hab]; omega
          · rw [min_eq_right hba]; omega

theorem minD_mem {l : List Nat} {m : Nat} (h : minD l = some m) : m ∈ l :=
  (minD_spec.mp h).1

theorem minD_le {l : List Nat} {m : Nat} (h : minD l = some m) :
    ∀ x ∈ l, m ≤ x := (minD_spec.mp h).2

/-- Two lists with the same members have the same minimum. -/
theorem minD_congr {l1 l2 : List Nat} (h : ∀ x, x ∈ l1 ↔ x ∈ l2) :
    minD l1 = minD l2 := by
  cases h1 : minD l1 with
  | none =>
    cases h2 : minD l2 with
    | none => rfl
    | some m =>
      have := minD_mem h2
      have h1' := minD_eq_none.mp h1
      subst h1'
      exact absurd ((h m).mpr this) (List.not_mem_nil m)
  | some m =>
    have hmem := minD_mem h1
    have hle := minD_le h1
    exact (minD_spec.mpr ⟨(h m).mp hmem, fun x hx => hle x ((h x).mpr hx)⟩).symm

/-- Shifting every member of a list by a constant shifts the minimum. -/
theorem minD_shift {l1 l2 : List Nat} {c : Nat}
    (h : ∀ x, x ∈ l2 ↔ ∃ y ∈ l1, x = y + c) :
    minD l2 = (minD l1).map (· + c) := by
  cases h1 : minD l1 with
  | none =>
    have h1' := minD_eq_none.mp h1
    subst h1'
    simp only [Option.map_none']
    rw [minD_eq_none]
    cases h2 : l2 with
    | nil => rfl
    | cons a rest =>
      exfalso
      have : a ∈ l2 := by rw [h2]; exact List.mem_cons_self a rest
      rcases (h a).mp this with ⟨y, hy, _⟩
      exact absurd hy (List.not_mem_nil y)
  | some m =>
    have hmem := minD_mem h1
    have hle := minD_le h1
    simp only [Option.map_some']
    refine minD_spec.mpr ⟨(h (m + c)).mpr ⟨m, hmem, rfl⟩, ?_⟩
    intro x hx
    rcases (h x).mp hx with ⟨y, hy, rfl⟩
    have := hle y hy
    omega

theorem maxD_eq_none : ∀ {l : List Nat}, maxD l = none ↔ l = []
  | [] => by simp [maxD]
  | a :: rest => by
    simp only [maxD]
    cases h : maxD rest <;> simp

theorem maxD_ge : ∀ {l : List Nat} {m : Nat}, maxD l = some m → ∀ x ∈ l, x ≤ m
  | [], m => by simp [maxD]
  | a :: rest, m => by
    simp only [maxD]
    cases h : maxD rest with
    | none =>
      have hrest : rest = [] := maxD_eq_none.mp h
      subst hrest
      intro h' x hx
      simp at h' hx
      omega
    | some b =>
      intro h' x hx
      have hb := maxD_ge (l := rest) (m := b) h
      simp only [Option.some.injEq] at h'
      subst h'
      rcases List.mem_cons.mp hx with hx | hx
      · rw [hx]
        exact le_max_left a b
      · have := hb x hx
        have := le_max_right a b
        omega

/-- A nonempty list has a maximum. -/
theorem maxD_isSome {l : List Nat} (h : l ≠ []) : ∃ m, maxD l = some m := by
  cases h2 : maxD l with
  | none => exact absurd (maxD_eq_none.mp h2) h
  | some m => exact ⟨m, rfl⟩

/-! ### Basic facts about visits and walks -/

theorem vflip_vflip (v : Visit) : vflip (vflip v) = v := by
  cases v with
  | mk n b => simp [vflip]

theorem vflip_fst (v : Visit) : (vflip v).1 = v.1 := rfl

theorem mem_allVisits {g : BiGraph} {v : Visit} :
    v ∈ allVisits g ↔ v.1 ∈ g.nodes := by
  cases v with
  | mk n b =>
    cases b <;> simp [allVisits]

theorem mem_allVisits_vflip {g : BiGraph} {v : Visit} (h : v ∈ allVisits g) :
    vflip v ∈ allVisits g := by
  rw [mem_allVisits] at h ⊢
  exact h

theorem adj_vflip {g : BiGraph} (a b : Visit) :
    adj g (vflip b) (vflip a) = adj g a b := by
  unfold adj
  rw [vflip_vflip, vflip_vflip]
  exact Bool.or_comm _ _

/-- Characterization of the walk enumeration: the enumerated lists are
exactly the chained walks of bounded length starting at `v` whose later
visits lie in the graph. -/
theorem mem_walksFrom {g : BiGraph} {v : Visit} {fuel : Nat} {w : List Visit} :
    w ∈ walksFrom g v fuel ↔
      w.head? = some v ∧ Chained g w ∧ (∀ x ∈ w.tail, x ∈ allVisits g) ∧
        w.length ≤ fuel + 1 := by
  induction fuel generalizing v w with
  | zero =>
    simp only [walksFrom, List.mem_singleton]
    constructor
    · rintro rfl
      refine ⟨rfl, ?_, ?_, ?_⟩
      · exact List.chain'_singleton v
      · intro x hx
        exact absurd hx (List.not_mem_nil x)
      · simp
    · rintro ⟨h1, _, _, h4⟩
      match w, h1, h4 with
      | [a], h1, _ =>
        simp only [List.head?_cons, Option.some.injEq] at h1
        rw [h1]
  | succ fuel ih =>
    simp only [walksFrom, List.mem_cons, List.mem_flatMap, List.mem_map,
      List.mem_filter]
    constructor
    · rintro (rfl | ⟨x, ⟨hxmem, hxadj⟩, ws, hws, rfl⟩)
      · refine ⟨rfl, List.chain'_singleton v, ?_, by simp⟩
        intro y hy
        exact absurd hy (List.not_mem_nil y)
      · obtain ⟨h1, h2, h3, h4⟩ := ih.mp hws
        match ws, h1, h2, h3, h4 with
        | b :: ws', h1, h2, h3, h4 =>
          simp only [List.head?_cons, Option.some.injEq] at h1
          subst h1
          refine ⟨rfl, ?_, ?_, ?_⟩
          · exact List.chain'_cons.mpr ⟨hxadj, h2⟩
          · intro y hy
            rcases List.mem_cons.mp hy with hy | hy
            · rw [hy]; exact hxmem
            · exact h3 y hy
          · simp only [List.length_cons] at h4 ⊢
            omega
    · rintro ⟨h1, h2, h3, h4⟩
      match w, h1 with
      | a :: rest, h1 =>
        simp only [List.head?_cons, Option.some.injEq] at h1
        subst h1
        cases rest with
        | nil => exact Or.inl rfl
        | cons b rest' =>
          refine Or.inr ⟨b, ⟨h3 b (List.mem_cons_self b rest'),
            (List.chain'_cons.mp h2).1⟩, b :: rest', ?_, rfl⟩
          refine ih.mpr ⟨rfl, (List.chain'_cons.mp h2).2, ?_, ?_⟩
          · intro y hy
            exact h3 y (List.mem_cons_of_mem b hy)
          · simp only [List.length_cons] at h4 ⊢
            omega

/-- Characterization of the candidate costs between two positions. -/
theorem mem_candidates {g : BiGraph} {p1 p2 : Pos} {c : Nat} :
    c ∈ candidates g p1 p2 ↔
      ∃ w : List Visit, w.head? = some p1.visit ∧ w.getLast? = some p2.visit ∧
        Chained g w ∧ (∀ x ∈ w.tail, x ∈ allVisits g) ∧
        w.length ≤ fuelOf g + 1 ∧ walkCost g p1 p2 w = some c := by
  unfold candidates
  simp only [List.mem_filterMap, mem_walksFrom]
  constructor
  · rintro ⟨w, ⟨h1, h2, h3, h4⟩, hc⟩
    by_cases hl : w.getLast? = some p2.visit
    · rw [if_pos hl] at hc
      exact ⟨w, h1, hl, h2, h3, h4, hc⟩
    · rw [if_neg hl] at hc
      exact absurd hc (by simp)
  · rintro ⟨w, h1, hl, h2, h3, h4, hc⟩
    exact ⟨w, ⟨h1, h2, h3, h4⟩, by rw [if_pos hl]; exact hc⟩

/-! ### Walk reversal and the symmetry of the minimum distance -/

theorem totSum_eq_midSum (g : BiGraph) :
    ∀ {w : List Visit} {x : Visit}, w.getLast? = some x →
      totSum g w = midSum g w + g.len x.1
  | [], x => by simp
  | [a], x => by
    intro h
    simp only [List.getLast?_singleton, Option.some.injEq] at h
    subst h
    simp [totSum, midSum]
  | a :: b :: rest, x => by
    intro h
    rw [List.getLast?_cons_cons] at h
    have ih := totSum_eq_midSum g (w := b :: rest) h
    simp only [totSum, List.map_cons, List.sum_cons, midSum] at ih ⊢
    omega

theorem totSum_flipRev (g : BiGraph) (w : List Visit) :
    totSum g ((w.map vflip).reverse) = totSum g w := by
  unfold totSum
  rw [List.map_reverse, List.sum_reverse, List.map_map]
  rfl

theorem midSum_tail_eq (g : BiGraph) {w : List Visit} {v1 vk : Visit}
    (h1 : w.head? = some v1) (hk : w.getLast? = some vk) (h2 : 2 ≤ w.length) :
    (midSum g w.tail : Int) =
      (totSum g w : Int) - g.len v1.1 - g.len vk.1 := by
  rcases w with _ | ⟨a, _ | ⟨b, rest⟩⟩
  · exact absurd h1 (by simp)
  · simp at h2
  · simp only [List.head?_cons, Option.some.injEq] at h1
    rw [List.getLast?_cons_cons] at hk
    have h3 := totSum_eq_midSum g (w := b :: rest) hk
    have h4 : totSum g (a :: b :: rest) = g.len a.1 + totSum g (b :: rest) := by
      simp [totSum]
    simp only [List.tail_cons]
    rw [← h1]
    omega

theorem chained_flipRev {g : BiGraph} {w : List Visit} (h : Chained g w) :
    Chained g ((w.map vflip).reverse) := by
  unfold Chained at h ⊢
  rw [List.chain'_reverse, List.chain'_map]
  have h' : List.Chain' (fun a b => adj g (vflip b) (vflip a) = true) w := by
    refine List.Chain'.imp ?_ h
    intro a b hab
    rw [adj_vflip]
    exact hab
  exact h'

theorem walkCost_of_two_le (g : BiGraph) (p1 p2 : Pos) :
    ∀ {w : List Visit}, 2 ≤ w.length →
      walkCost g p1 p2 w =
        some ((g.len p1.node - p1.off) + midSum g w.tail + p2.off)
  | [], h => by simp at h
  | [_], h => by simp at h
  | _ :: _ :: _, _ => rfl

/-- Cost of the reverse-complement of a walk of at least two visits. -/
theorem walkCost_flip_multi {g : BiGraph} {p1 p2 : Pos} {w : List Visit}
    (hlen2 : 2 ≤ w.length)
    (hh : w.head? = some p1.visit) (hl : w.getLast? = some p2.visit)
    (h1 : ValidPos g p1) (h2 : ValidPos g p2) :
    walkCost g (flipPos g p2) (flipPos g p1) ((w.map vflip).reverse) =
      walkCost g p1 p2 w := by
  have hh' : ((w.map vflip).reverse).head? = some (vflip p2.visit) := by
    rw [List.head?_reverse, List.getLast?_map, hl, Option.map_some']
  have hl' : ((w.map vflip).reverse).getLast? = some (vflip p1.visit) := by
    rw [List.getLast?_reverse, List.head?_map, hh, Option.map_some']
  have hlen2' : 2 ≤ ((w.map vflip).reverse).length := by
    simp only [List.length_reverse, List.length_map]
    omega
  rw [walkCost_of_two_le g p1 p2 hlen2,
    walkCost_of_two_le g (flipPos g p2) (flipPos g p1) hlen2']
  have hmid := midSum_tail_eq g hh hl hlen2
  have hmid' := midSum_tail_eq g hh' hl' hlen2'
  rw [totSum_flipRev] at hmid'
  have eA : g.len (p1.visit).1 = g.len p1.node := rfl
  have eB : g.len (p2.visit).1 = g.len p2.node := rfl
  have eC : g.len ((vflip p2.visit).1) = g.len p2.node := rfl
  have eD : g.len ((vflip p1.visit).1) = g.len p1.node := rfl
  rw [eA, eB] at hmid
  rw [eC, eD] at hmid'
  have eE : (flipPos g p2).node = p2.node := rfl
  have eF : (flipPos g p2).off = g.len p2.node - 1 - p2.off := rfl
  have eG : (flipPos g p1).off = g.len p1.node - 1 - p1.off := rfl
  rw [eE, eF, eG]
  have ho1 : p1.off < g.len p1.node := h1.2
  have ho2 : p2.off < g.len p2.node := h2.2
  simp only [Option.some.injEq]
  omega

/-- Cost of the reverse-complement walk: reading the walk backwards with
every visit flipped travels from the flip of `p2` to the flip of `p1` at
the same cost. -/
theorem walkCost_flip {g : BiGraph} {p1 p2 : Pos} {w : List Visit}
    (hh : w.head? = some p1.visit) (hl : w.getLast? = some p2.visit)
    (h1 : ValidPos g p1) (h2 : ValidPos g p2) :
    walkCost g (flipPos g p2) (flipPos g p1) ((w.map vflip).reverse) =
      walkCost g p1 p2 w := by
  rcases w with _ | ⟨v, _ | ⟨b, rest⟩⟩
  · exact absurd hh (by simp)
  · simp only [List.head?_cons, Option.some.injEq] at hh
    simp only [List.getLast?_singleton, Option.some.injEq] at hl
    have hnode : p1.node = p2.node := by
      have hv : p1.visit = p2.visit := by rw [← hh, hl]
      exact congrArg Prod.fst hv
    have ho1 : p1.off < g.len p1.node := h1.2
    have ho2 : p2.off < g.len p2.node := h2.2
    rw [← hnode] at ho2
    have hrw : (([v].map vflip).reverse) = [vflip v] := rfl
    rw [hrw]
    show (if (flipPos g p2).off ≤ (flipPos g p1).off
        then some ((flipPos g p1).off - (flipPos g p2).off) else none) =
      (if p1.off ≤ p2.off then some (p2.off - p1.off) else none)
    have eF : (flipPos g p2).off = g.len p2.node - 1 - p2.off := rfl
    have eG : (flipPos g p1).off = g.len p1.node - 1 - p1.off := rfl
    rw [eF, eG, ← hnode]
    split_ifs <;>
      first
        | rfl
        | (simp only [Option.some.injEq]; omega)
        | (exfalso; omega)
  · exact walkCost_flip_multi (by simp only [List.length_cons]; omega) hh hl h1 h2

theorem validPos_flipPos {g : BiGraph} {p : Pos} (h : ValidPos g p) :
    ValidPos g (flipPos g p) := by
  obtain ⟨hn, ho⟩ := h
  exact ⟨hn, by simp only [flipPos]; omega⟩

theorem flipPos_flipPos {g : BiGraph} {p : Pos} (h : ValidPos g p) :
    flipPos g (flipPos g p) = p := by
  obtain ⟨hn, ho⟩ := h
  cases p with
  | mk n o r =>
    simp only at ho
    simp only [flipPos, Bool.not_not, Pos.mk.injEq, true_and, and_true]
    omega

theorem visit_flipPos (g : BiGraph) (p : Pos) :
    (flipPos g p).visit = vflip p.visit := rfl

/-- Every member of a walk that starts at a valid position and whose tail
lies in the graph is a graph visit. -/
theorem walk_mem_allVisits {g : BiGraph} {p : Pos} {w : List Visit}
    (hh : w.head? = some p.visit) (ht : ∀ x ∈ w.tail, x ∈ allVisits g)
    (hp : ValidPos g p) : ∀ x ∈ w, x ∈ allVisits g := by
  rcases w with _ | ⟨a, rest⟩
  · intro x hx
    exact absurd hx (List.not_mem_nil x)
  · simp only [List.head?_cons, Option.some.injEq] at hh
    intro x hx
    rcases List.mem_cons.mp hx with hx | hx
    · rw [hx, hh]
      exact mem_allVisits.mpr hp.1
    · exact ht x hx

/-- Reversing and flipping transports a candidate cost from the pair
`(p1, p2)` to the pair `(flip p2, flip p1)`. -/
theorem mem_candidates_flip {g : BiGraph} {p1 p2 : Pos} {c : Nat}
    (h1 : ValidPos g p1) (h2 : ValidPos g p2)
    (hc : c ∈ candidates g p1 p2) :
    c ∈ candidates g (flipPos g p2) (flipPos g p1) := by
  rcases mem_candidates.mp hc with ⟨w, hh, hl, hch, htail, hlen, hcost⟩
  refine mem_candidates.mpr ⟨(w.map vflip).reverse, ?_, ?_, chained_flipRev hch,
    ?_, ?_, ?_⟩
  · rw [List.head?_reverse, List.getLast?_map, hl, Option.map_some',
      visit_flipPos]
  · rw [List.getLast?_reverse, List.head?_map, hh, Option.map_some',
      visit_flipPos]
  · intro x hx
    have hx' : x ∈ (w.map vflip).reverse := List.mem_of_mem_tail hx
    rw [List.mem_reverse, List.mem_map] at hx'
    rcases hx' with ⟨y, hy, rfl⟩
    exact mem_allVisits_vflip (walk_mem_allVisits hh htail h1 y hy)
  · simp only [List.length_reverse, List.length_map]
    exact hlen
  · rw [walkCost_flip hh hl h1 h2]
    exact hcost

/-- C1.  For every pair of valid positions, the minimum distance is
symmetric under flipping and swapping the two positions. -/
theorem C1_min_distance_symmetry (g : BiGraph) (p1 p2 : Pos)
    (h1 : ValidPos g p1) (h2 : ValidPos g p2) :
    minDistance g p1 p2 = minDistance g (flipPos g p2) (flipPos g p1) := by
  have hcong : minD (candidates g p1 p2) =
      minD (candidates g (flipPos g p2) (flipPos g p1)) := by
    apply minD_congr
    intro c
    constructor
    · exact mem_candidates_flip h1 h2
    · intro hc
      have hback :=
        mem_candidates_flip (validPos_flipPos h2) (validPos_flipPos h1) hc
      rw [flipPos_flipPos h1, flipPos_flipPos h2] at hback
      exact hback
  unfold minDistance
  rw [hcong]

theorem nodeAdjB_of_adj {g : BiGraph} {a b : Visit} (h : adj g a b = true) :
    nodeAdjB g a.1 b.1 = true := by
  unfold adj at h
  rw [Bool.or_eq_true] at h
  unfold nodeAdjB
  rw [List.any_eq_true]
  rcases h with h | h
  · refine ⟨((a, b).1, (a, b).2), by simpa using h, ?_⟩
    simp
  · refine ⟨((vflip b, vflip a).1, (vflip b, vflip a).2), by simpa using h, ?_⟩
    simp [vflip_fst]

theorem mem_reachStep_of_mem {g : BiGraph} {s : List Nat} {x : Nat}
    (h : x ∈ s) : x ∈ reachStep g s := by
  unfold reachStep
  rw [List.mem_dedup]
  exact List.mem_append_left _ h

theorem mem_reachStep_of_adj {g : BiGraph} {s : List Nat} {x y : Nat}
    (hx : x ∈ s) (hadj : nodeAdjB g x y = true) (hy : y ∈ g.nodes) :
    y ∈ reachStep g s := by
  unfold reachStep
  rw [List.mem_dedup]
  refine List.mem_append_right _ ?_
  rw [List.mem_filter]
  refine ⟨hy, ?_⟩
  rw [List.any_eq_true]
  exact ⟨x, hx, hadj⟩

theorem reachSet_mono {g : BiGraph} {n x : Nat} {k : Nat}
    (h : x ∈ reachSet g n k) : ∀ j, x ∈ reachSet g n (k + j) := by
  intro j
  induction j with
  | zero => exact h
  | succ j ih =>
    have : k + (j + 1) = (k + j) + 1 := by omega
    rw [this]
    exact mem_reachStep_of_mem ih

/-- Every visit of a chained walk whose later visits lie in the graph is
reachable, ignoring direction, from the walk's first node. -/
theorem walk_reach {g : BiGraph} :
    ∀ {w : List Visit} {n : Nat} {k : Nat},
      Chained g w → (∀ x ∈ w.tail, x ∈ allVisits g) →
      (∀ v0, w.head? = some v0 → v0.1 ∈ reachSet g n k) →
      ∀ x ∈ w, x.1 ∈ reachSet g n (k + w.length) := by
  intro w
  induction w with
  | nil =>
    intro n k _ _ _ x hx
    exact absurd hx (List.not_mem_nil x)
  | cons a rest ih =>
    intro n k hch htail hhead x hx
    have ha : a.1 ∈ reachSet g n k := hhead a rfl
    rcases List.mem_cons.mp hx with hx | hx
    · rw [hx]
      exact reachSet_mono ha _
    · rcases rest with _ | ⟨b, rest'⟩
      · exact absurd hx (List.not_mem_nil x)
      · have hab : adj g a b = true := (List.chain'_cons.mp hch).1
        have hb : b.1 ∈ reachSet g n (k + 1) :=
          mem_reachStep_of_adj (by simpa using ha) (nodeAdjB_of_adj hab)
            (mem_allVisits.mp (htail b (List.mem_cons_self b rest')))
        have := ih (n := n) (k := k + 1) (List.chain'_cons.mp hch).2
          (fun y hy => htail y (List.mem_cons_of_mem b hy))
          (fun v0 hv0 => by
            simp only [List.head?_cons, Option.some.injEq] at hv0
            rw [← hv0]
            exact hb)
          x hx
        have harith : k + 1 + (b :: rest').length = k + (a :: b :: rest').length := by
          simp only [List.length_cons]
          omega
        rw [harith] at this
        exact this

/-- Reachable candidate costs force the two nodes into one component. -/
theorem sameComponent_of_candidates {g : BiGraph} {p1 p2 : Pos} {c : Nat}
    (h1 : ValidPos g p1) (hc : c ∈ candidates g p1 p2) :
    sameComponent g p1.node p2.node = true := by
  rcases mem_candidates.mp hc with ⟨w, hh, hl, hch, htail, hlen, _⟩
  have hstart : ∀ v0, w.head? = some v0 → v0.1 ∈ reachSet g p1.node 0 := by
    intro v0 hv0
    rw [hh] at hv0
    simp only [Option.some.injEq] at hv0
    rw [← hv0]
    simp [reachSet, Pos.visit]
  have hlast : p2.visit ∈ w := by
    rcases w with _ | ⟨a, rest⟩
    · exact absurd hl (by simp)
    · exact List.mem_of_mem_getLast? hl
  have := walk_reach hch htail hstart p2.visit hlast
  have hmono := reachSet_mono this (2 * g.nodes.length + 1 - (0 + w.length))
  have harith : 0 + w.length + (2 * g.nodes.length + 1 - (0 + w.length)) =
      2 * g.nodes.length + 1 := by
    have : w.length ≤ fuelOf g + 1 := hlen
    unfold fuelOf at this
    omega
  rw [harith] at hmono
  unfold sameComponent
  simpa using hmono

/-- C4.  Positions in different connected components: the minimum distance
is the sentinel -1 and the maximum distance estimate is the cap. -/
theorem C4_disconnected_sentinels (g : BiGraph) (cap : Nat) (p1 p2 : Pos)
    (h1 : ValidPos g p1) (h2 : ValidPos g p2)
    (hdiff : sameComponent g p1.node p2.node = false) :
    minDistance g p1 p2 = -1 ∧ maxDistance g cap p1 p2 = (cap : Int) := by
  have hcand : candidates g p1 p2 = [] := by
    cases hlist : candidates g p1 p2 with
    | nil => rfl
    | cons a rest =>
      exfalso
      have ha : a ∈ candidates g p1 p2 := by
        rw [hlist]
        exact List.mem_cons_self a rest
      have := sameComponent_of_candidates h1 ha
      rw [hdiff] at this
      exact Bool.false_ne_true this
  constructor
  · unfold minDistance
    rw [hcand]
    rfl
  · unfold maxDistance
    rw [if_pos hdiff]

/-- C2 (amended).  The maximum distance estimate never exceeds the cap,
and it dominates the minimum distance whenever the latter is finite and
within the cap. -/
theorem C2_upper_bound_amended (g : BiGraph) (cap : Nat) (p1 p2 : Pos)
    (h1 : ValidPos g p1) (h2 : ValidPos g p2) :
    maxDistance g cap p1 p2 ≤ (cap : Int) ∧
      (0 ≤ minDistance g p1 p2 → minDistance g p1 p2 ≤ (cap : Int) →
        minDistance g p1 p2 ≤ maxDistance g cap p1 p2) := by
  constructor
  · unfold maxDistance
    split_ifs with hsc hcy
    · exact le_refl _
    · exact le_refl _
    · cases hmax : maxD (candidates g p1 p2) with
      | none => exact le_refl _
      | some M => exact min_le_left _ _
  · intro hge hle
    cases hmin : minD (candidates g p1 p2) with
    | none =>
      have : minDistance g p1 p2 = -1 := by
        unfold minDistance
        rw [hmin]
      rw [this] at hge
      norm_num at hge
    | some m =>
      have hmd : minDistance g p1 p2 = (m : Int) := by
        unfold minDistance
        rw [hmin]
      have hmem := minD_mem hmin
      have hsame := sameComponent_of_candidates h1 hmem
      unfold maxDistance
      rw [if_neg (by rw [hsame]; exact fun h => Bool.noConfusion h)]
      split_ifs with hcy
      · exact hle
      · have hne : candidates g p1 p2 ≠ [] := by
          intro h0
          rw [h0] at hmin
          simp [minD] at hmin
        rcases maxD_isSome hne with ⟨M, hM⟩
        rw [hM]
        have hmM : m ≤ M := maxD_ge hM m hmem
        rw [hmd] at hle ⊢
        exact le_min hle (by exact_mod_cast hmM)

theorem minDistance_cases (g : BiGraph) (p1 p2 : Pos) :
    minDistance g p1 p2 = -1 ∨ 0 ≤ minDistance g p1 p2 := by
  unfold minDistance
  cases minD (candidates g p1 p2) with
  | none => exact Or.inl rfl
  | some m => exact Or.inr (Int.ofNat_nonneg m)

/-- Shifting the target position's offset shifts every walk cost by the
same amount, provided no trivial single-visit walk connects the pair. -/
theorem walkCost_off2_shift {g : BiGraph} {p1 : Pos} {n : Nat} {r : Bool}
    {c : Nat} {w : List Visit}
    (hside : p1.off = 0 ∨ p1.visit ≠ (n, r))
    (hh : w.head? = some p1.visit) (hl : w.getLast? = some ((n, r) : Visit)) :
    walkCost g p1 ⟨n, c, r⟩ w = (walkCost g p1 ⟨n, 0, r⟩ w).map (· + c) := by
  rcases w with _ | ⟨v, _ | ⟨b, rest⟩⟩
  · exact absurd hh (by simp)
  · simp only [List.head?_cons, Option.some.injEq] at hh
    simp only [List.getLast?_singleton, Option.some.injEq] at hl
    rcases hside with h0 | hne
    · show (if p1.off ≤ c then some (c - p1.off) else none) =
        (if p1.off ≤ 0 then some (0 - p1.off) else none).map (· + c)
      rw [h0]
      simp
    · exfalso
      exact hne (by rw [← hh, hl])
  · have hlen2 : 2 ≤ (v :: b :: rest).length := by
      simp only [List.length_cons]
      omega
    rw [walkCost_of_two_le g p1 ⟨n, c, r⟩ hlen2,
      walkCost_of_two_le g p1 ⟨n, 0, r⟩ hlen2]
    simp only [Option.map_some']
    congr 1

/-- Shifting the source position's offset within its node shifts every walk
cost oppositely, provided the two visits differ. -/
theorem walkCost_off1_shift {g : BiGraph} {p2 : Pos} {n : Nat} {r : Bool}
    {c : Nat} {w : List Visit}
    (hc : c < g.len n) (hne : ((n, r) : Visit) ≠ p2.visit)
    (hh : w.head? = some ((n, r) : Visit)) (hl : w.getLast? = some p2.visit) :
    walkCost g ⟨n, 0, r⟩ p2 w = (walkCost g ⟨n, c, r⟩ p2 w).map (· + c) := by
  rcases w with _ | ⟨v, _ | ⟨b, rest⟩⟩
  · exact absurd hh (by simp)
  · simp only [List.head?_cons, Option.some.injEq] at hh
    simp only [List.getLast?_singleton, Option.some.injEq] at hl
    exfalso
    exact hne (by rw [← hh, hl])
  · have hlen2 : 2 ≤ (v :: b :: rest).length := by
      simp only [List.length_cons]
      omega
    rw [walkCost_of_two_le g ⟨n, 0, r⟩ p2 hlen2,
      walkCost_of_two_le g ⟨n, c, r⟩ p2 hlen2]
    simp only [Option.map_some']
    congr 1
    omega

/-- Minimum distance to a shifted target offset. -/
theorem minDistance_off2_shift (g : BiGraph) (p1 : Pos) (n : Nat) (r : Bool)
    (c : Nat) (hside : p1.off = 0 ∨ p1.visit ≠ (n, r)) :
    minDistance g p1 ⟨n, c, r⟩ =
      if minDistance g p1 ⟨n, 0, r⟩ = -1 then -1
      else minDistance g p1 ⟨n, 0, r⟩ + c := by
  have hmem : ∀ x, x ∈ candidates g p1 ⟨n, c, r⟩ ↔
      ∃ y ∈ candidates g p1 ⟨n, 0, r⟩, x = y + c := by
    intro x
    constructor
    · intro hx
      rcases mem_candidates.mp hx with ⟨w, hh, hl, hch, htail, hlen, hcost⟩
      have hl' : w.getLast? = some ((n, r) : Visit) := hl
      rw [walkCost_off2_shift hside hh hl'] at hcost
      cases hy : walkCost g p1 ⟨n, 0, r⟩ w with
      | none =>
        rw [hy] at hcost
        exact absurd hcost (by simp)
      | some y =>
        rw [hy] at hcost
        simp only [Option.map_some', Option.some.injEq] at hcost
        exact ⟨y, mem_candidates.mpr ⟨w, hh, hl, hch, htail, hlen, hy⟩,
          hcost.symm⟩
    · rintro ⟨y, hy, rfl⟩
      rcases mem_candidates.mp hy with ⟨w, hh, hl, hch, htail, hlen, hcost⟩
      have hl' : w.getLast? = some ((n, r) : Visit) := hl
      refine mem_candidates.mpr ⟨w, hh, hl, hch, htail, hlen, ?_⟩
      rw [walkCost_off2_shift hside hh hl', hcost, Option.map_some']
  have hshift := minD_shift hmem
  unfold minDistance
  cases h0 : minD (candidates g p1 ⟨n, 0, r⟩) with
  | none =>
    rw [h0] at hshift
    rw [hshift]
    rfl
  | some m =>
    rw [h0] at hshift
    rw [hshift]
    simp only [Option.map_some']
    rw [if_neg (by omega)]
    push_cast
    ring

/-- Minimum distance from a shifted source offset. -/
theorem minDistance_off1_shift (g : BiGraph) (p2 : Pos) (n : Nat) (r : Bool)
    (c : Nat) (hc : c < g.len n) (hne : ((n, r) : Visit) ≠ p2.visit) :
    minDistance g ⟨n, 0, r⟩ p2 =
      if minDistance g ⟨n, c, r⟩ p2 = -1 then -1
      else minDistance g ⟨n, c, r⟩ p2 + c := by
  have hvisit : (Pos.mk n 0 r).visit = ((n, r) : Visit) := rfl
  have hvisit' : (Pos.mk n c r).visit = ((n, r) : Visit) := rfl
  have hmem : ∀ x, x ∈ candidates g ⟨n, 0, r⟩ p2 ↔
      ∃ y ∈ candidates g ⟨n, c, r⟩ p2, x = y + c := by
    intro x
    constructor
    · intro hx
      rcases mem_candidates.mp hx with ⟨w, hh, hl, hch, htail, hlen, hcost⟩
      rw [hvisit] at hh
      rw [walkCost_off1_shift hc hne hh hl] at hcost
      cases hy : walkCost g ⟨n, c, r⟩ p2 w with
      | none =>
        rw [hy] at hcost
        exact absurd hcost (by simp)
      | some y =>
        rw [hy] at hcost
        simp only [Option.map_some', Option.some.injEq] at hcost
        refine ⟨y, mem_candidates.mpr ⟨w, ?_, hl, hch, htail, hlen, hy⟩,
          hcost.symm⟩
        rw [hvisit']
        exact hh
    · rintro ⟨y, hy, rfl⟩
      rcases mem_candidates.mp hy with ⟨w, hh, hl, hch, htail, hlen, hcost⟩
      rw [hvisit'] at hh
      refine mem_candidates.mpr ⟨w, by rw [hvisit]; exact hh, hl, hch, htail,
        hlen, ?_⟩
      rw [walkCost_off1_shift hc hne hh hl, hcost, Option.map_some']
  have hshift := minD_shift hmem
  unfold minDistance
  cases h0 : minD (candidates g ⟨n, c, r⟩ p2) with
  | none =>
    rw [h0] at hshift
    rw [hshift]
    rfl
  | some m =>
    rw [h0] at hshift
    rw [hshift]
    simp only [Option.map_some']
    rw [if_neg (by omega)]
    push_cast
    ring

/-- C6.  The snarl length equals the snarl distance from the start boundary
to the end boundary plus the length of the end boundary node. -/
theorem C6_snarl_length (g : BiGraph) (s e : Visit)
    (hlen : 0 < g.len e.1) (hreach : snarlDistance g s e ≠ -1) :
    snarlLength g s e = snarlDistance g s e + nodeLength g e.1 := by
  have hsd : snarlDistance g s e = minDistance g ⟨s.1, 0, s.2⟩ ⟨e.1, 0, e.2⟩ :=
    rfl
  have hd0 : ¬(minDistance g ⟨s.1, 0, s.2⟩ ⟨e.1, 0, e.2⟩ = -1) := by
    rw [← hsd]
    exact hreach
  have hnonneg : 0 ≤ minDistance g ⟨s.1, 0, s.2⟩ ⟨e.1, 0, e.2⟩ := by
    rcases minDistance_cases g ⟨s.1, 0, s.2⟩ ⟨e.1, 0, e.2⟩ with h | h
    · exact absurd h hd0
    · exact h
  have hshift := minDistance_off2_shift g ⟨s.1, 0, s.2⟩ e.1 e.2
    (g.len e.1 - 1) (Or.inl rfl)
  rw [if_neg hd0] at hshift
  simp only [snarlLength]
  rw [hshift]
  rw [if_neg (by omega)]
  rw [hsd]
  unfold nodeLength
  omega

/-- C7.  The short snarl distance measures from the end of the first visit:
it equals the snarl distance minus the length of the first visit's node. -/
theorem C7_snarl_distance_short (g : BiGraph) (a b : Visit)
    (hlen : 0 < g.len a.1) (hne : a ≠ b)
    (hreach : snarlDistance g a b ≠ -1) :
    snarlDistanceShort g a b = snarlDistance g a b - nodeLength g a.1 := by
  have hne' : ((a.1, a.2) : Visit) ≠ (Pos.mk b.1 0 b.2).visit := by
    intro h
    exact hne (by
      cases a with
      | mk a1 a2 =>
        cases b with
        | mk b1 b2 => exact h)
  have hc : g.len a.1 - 1 < g.len a.1 := by omega
  have hshift := minDistance_off1_shift g ⟨b.1, 0, b.2⟩ a.1 a.2
    (g.len a.1 - 1) hc hne'
  have hsd : snarlDistance g a b = minDistance g ⟨a.1, 0, a.2⟩ ⟨b.1, 0, b.2⟩ :=
    rfl
  by_cases hdc : minDistance g ⟨a.1, g.len a.1 - 1, a.2⟩ ⟨b.1, 0, b.2⟩ = -1
  · rw [if_pos hdc] at hshift
    exact absurd (hsd.trans hshift) hreach
  · rw [if_neg hdc] at hshift
    simp only [snarlDistanceShort]
    rw [if_neg hdc]
    rw [hsd, hshift]
    unfold nodeLength
    omega

theorem parseIntList_serialize (l rest : List Int) :
    parseIntList (serializeIntList l ++ rest) = some (l, rest) := by
  simp only [serializeIntList, List.cons_append, parseIntList,
    Int.toNat_ofNat]
  rw [if_pos (by rw [List.length_append]; omega)]
  rw [List.take_left, List.drop_left]

theorem parseSnarl_serialize (s : SnarlIndexData) (h : s.wf) (rest : List Int) :
    parseSnarl (serializeSnarl s ++ rest) = some (s, rest) := by
  unfold SnarlIndexData.wf at h
  simp only [serializeSnarl, List.cons_append, parseSnarl, Int.toNat_ofNat]
  rw [List.append_assoc]
  rw [if_pos (by
    rw [List.length_append, List.length_append]
    omega)]
  rw [List.take_left, List.drop_left]
  rw [← h, List.take_left, List.drop_left]

theorem take_len_append {α : Type} (l r : List α) (n : Nat)
    (h : n = l.length) : (l ++ r).take n = l := by
  rw [h, List.take_left]

theorem drop_len_append {α : Type} (l r : List α) (n : Nat)
    (h : n = l.length) : (l ++ r).drop n = r := by
  rw [h, List.drop_left]

theorem parseChain_serialize (c : ChainIndexData) (h : c.wf) (rest : List Int) :
    parseChain (serializeChain c ++ rest) = some (c, rest) := by
  obtain ⟨h1, h2, h3⟩ := h
  simp only [serializeChain, List.cons_append, parseChain, Int.toNat_ofNat]
  rw [List.append_assoc, List.append_assoc, List.append_assoc]
  rw [if_pos (by
    simp only [List.length_append]
    omega)]
  rw [take_len_append c.nodeIds _ _ rfl, drop_len_append c.nodeIds _ _ rfl]
  rw [take_len_append c.prefSum _ _ h1.symm,
    drop_len_append c.prefSum _ _ h1.symm]
  rw [take_len_append c.loopFd _ _ h2.symm,
    drop_len_append c.loopFd _ _ h2.symm]
  rw [take_len_append c.loopRev _ _ h3.symm,
    drop_len_append c.loopRev _ _ h3.symm]

theorem parseMany_serialize {α : Type} (p : List Int → Option (α × List Int))
    (f : α → List Int) :
    ∀ (xs : List α), (∀ x ∈ xs, ∀ r, p (f x ++ r) = some (x, r)) →
      ∀ rest, parseMany p xs.length ((xs.map f).flatten ++ rest) =
        some (xs, rest)
  | [], _, rest => by
    simp [parseMany]
  | x :: xs, hp, rest => by
    have hx := hp x (List.mem_cons_self x xs)
    have hxs : ∀ y ∈ xs, ∀ r, p (f y ++ r) = some (y, r) :=
      fun y hy => hp y (List.mem_cons_of_mem x hy)
    have ih := parseMany_serialize p f xs hxs rest
    simp only [List.map_cons, List.flatten_cons, List.length_cons, parseMany]
    rw [List.append_assoc, hx ((xs.map f).flatten ++ rest)]
    simp only [Option.some_bind]
    rw [ih]
    simp only [Option.map_some']

theorem bind_parseInt_cons {β : Type} (x : Int) (r : List Int)
    (f : Int × List Int → Option β) :
    (parseInt (x :: r)).bind f = f (x, r) := rfl

theorem parseIntList_serialize_nil (l : List Int) :
    parseIntList (serializeIntList l) = some (l, []) := by
  have h := parseIntList_serialize l []
  rwa [List.append_nil] at h

/-- C3.  Loading a serialized index reconstructs a structurally equal
index, so every subsequent query answers identically. -/
theorem C3_serialization_round_trip (d : DistanceIndexData)
    (h : d.wf) : loadIndex (serializeIndex d) = some d := by
  obtain ⟨hs, hc⟩ := h
  rw [show serializeIndex d = (d.minNodeId : Int) :: (d.maxNodeId : Int) ::
    (d.cap : Int) :: (d.snarls.length : Int) :: (d.chains.length : Int) ::
    (serializeIntList d.nodeToSnarl ++
      ((d.snarls.map serializeSnarl).flatten ++
        ((d.chains.map serializeChain).flatten ++
          d.numCycles :: d.numComponents ::
            (serializeIntList d.nodeToComponent ++
              (serializeIntList d.minDistances ++
                serializeIntList d.maxDistances))))) from by
    simp [serializeIndex]]
  rw [loadIndex, bind_parseInt_cons]
  rw [bind_parseInt_cons]
  rw [bind_parseInt_cons]
  rw [bind_parseInt_cons]
  rw [bind_parseInt_cons]
  rw [parseIntList_serialize]
  simp only [Option.some_bind, Int.toNat_ofNat]
  rw [parseMany_serialize parseSnarl serializeSnarl d.snarls
    (fun s hmem r => parseSnarl_serialize s (hs s hmem) r)]
  simp only [Option.some_bind]
  rw [parseMany_serialize parseChain serializeChain d.chains
    (fun c hmem r => parseChain_serialize c (hc c hmem) r)]
  simp only [Option.some_bind, bind_parseInt_cons]
  rw [parseIntList_serialize]
  simp only [Option.some_bind]
  rw [parseIntList_serialize]
  simp only [Option.some_bind]
  rw [parseIntList_serialize_nil]
  simp only [Option.some_bind, Int.toNat_ofNat]
  simp

/-! ### Theorems about the distance table, the overloads and the translator -/

/-- C9.  Inserting a distance stores the minimum of the previous finite
value and the new distance (the unreachable sentinel counts as larger than
every finite distance), and the stored entry never increases. -/
theorem C9_insert_distance_min (t : SnarlTable) (a b : Visit) (dist : Nat)
    (hin : tindex t a b < t.dists.length) :
    snarlDistOf (insertDistance t a b dist) a b =
        (if snarlDistOf t a b = -1 then (dist : Int)
          else min (snarlDistOf t a b) (dist : Int)) ∧
      (snarlDistOf t a b = -1 ∨
        snarlDistOf (insertDistance t a b dist) a b ≤ snarlDistOf t a b) := by
  have hidx : tindex (insertDistance t a b dist) a b = tindex t a b := rfl
  have hstored : storedAt (insertDistance t a b dist) a b =
      (if t.dists.getD (tindex t a b) 0 = 0 then dist + 1
        else min (t.dists.getD (tindex t a b) 0) (dist + 1)) := by
    unfold storedAt
    rw [hidx]
    unfold insertDistance
    simp only [List.getD]
    rw [List.get?_set_eq_of_lt _ hin]
    rfl
  have hold : storedAt t a b = t.dists.getD (tindex t a b) 0 := rfl
  unfold snarlDistOf
  rw [hstored, hold]
  rcases Nat.eq_zero_or_pos (t.dists.getD (tindex t a b) 0) with h0 | hp
  · rw [h0]
    constructor
    · rw [if_pos (by norm_num), if_pos (by norm_num)]
      push_cast
      ring
    · left
      norm_num
  · rw [if_neg (by omega), if_neg (by omega)]
    constructor
    · rcases Nat.le_total (t.dists.getD (tindex t a b) 0) (dist + 1) with h | h
      · rw [min_eq_left h, min_eq_left (by omega : ((t.dists.getD (tindex t a b) 0 : Int) - 1) ≤ (dist : Int))]
      · rw [min_eq_right h, min_eq_right (by omega : ((dist : Int)) ≤ (t.dists.getD (tindex t a b) 0 : Int) - 1)]
        push_cast
        ring
    · right
      have := min_le_left (t.dists.getD (tindex t a b) 0) (dist + 1)
      omega

/-- C5.  When the snarl arguments passed to the four-argument min_distance
overload are the innermost snarls of the two positions, the two overloads
agree. -/
theorem C5_overload_agreement (g : BiGraph) (d : DistanceIndexData)
    (s1 s2 : Int) (p1 p2 : Pos)
    (h1 : s1 = snarlOf d p1.node) (h2 : s2 = snarlOf d p2.node) :
    minDistanceQ g d p1 p2 = minDistanceSnarls g s1 s2 p1 p2 := by
  rw [h1, h2]
  rfl

theorem lookupName_mem_values :
    ∀ {m : List (String × Int)} {nm : String} {v : Int},
      lookupName m nm = some v → v ∈ m.map Prod.snd
  | [], nm, v => by simp [lookupName]
  | p :: rest, nm, v => by
    simp only [lookupName, List.map_cons]
    by_cases hp : p.1 = nm
    · rw [if_pos hp]
      intro h
      simp only [Option.some.injEq] at h
      rw [← h]
      exact List.mem_cons_self _ _
    · rw [if_neg hp]
      intro h
      exact List.mem_cons_of_mem _ (lookupName_mem_values h)

/-- Distinct names looked up in a map with pairwise distinct recorded
values receive distinct values. -/
theorem values_nodup_inj :
    ∀ {m : List (String × Int)} {n1 n2 : String} {v1 v2 : Int},
      (m.map Prod.snd).Nodup → lookupName m n1 = some v1 →
      lookupName m n2 = some v2 → n1 ≠ n2 → v1 ≠ v2
  | [], n1, n2, v1, v2 => by simp [lookupName]
  | p :: rest, n1, n2, v1, v2 => by
    intro hnd h1 h2 h12
    simp only [List.map_cons] at hnd
    have hnd1 := (List.nodup_cons.mp hnd).1
    have hnd2 := (List.nodup_cons.mp hnd).2
    simp only [lookupName] at h1 h2
    by_cases hp1 : p.1 = n1
    · rw [if_pos hp1] at h1
      simp only [Option.some.injEq] at h1
      have hp2 : p.1 ≠ n2 := by
        rw [hp1]
        exact h12
      rw [if_neg hp2] at h2
      have hv2 := lookupName_mem_values h2
      rw [← h1]
      intro hcontra
      rw [hcontra] at hnd1
      exact hnd1 hv2
    · rw [if_neg hp1] at h1
      by_cases hp2 : p.1 = n2
      · rw [if_pos hp2] at h2
        simp only [Option.some.injEq] at h2
        have hv1 := lookupName_mem_values h1
        rw [← h2]
        intro hcontra
        rw [← hcontra] at hnd1
        exact hnd1 hv1
      · rw [if_neg hp2] at h2
        exact values_nodup_inj hnd2 h1 h2 h12

/-- Behaviour of translate on a fresh name, under the state invariant: the
new number is positive, untaken and below the new cursor, and an all-digit
name whose positive value is untaken receives that value. -/
theorem translate_miss_spec {st : TransState} {name : String}
    (hmiss : lookupName st.name_to_name name = none) (hinv : Inv st) :
    ∃ assigned next2,
      translate st name =
        (assigned, ⟨(name, assigned) :: st.name_to_name,
          assigned :: st.used, next2⟩) ∧
      0 < assigned ∧ assigned ∉ st.used ∧ assigned < next2 ∧
      st.next_unused ≤ next2 ∧
      (is_number name = true → 0 < stol name →
        st.used.contains (stol name) = false → assigned = stol name) := by
  obtain ⟨h1, h2, h3, h4⟩ := hinv
  simp only [translate, hmiss]
  by_cases hcond : (if is_number name then stol name else 0) ≤ 0 ∨
      st.used.contains (if is_number name then stol name else 0) = true
  · refine ⟨st.next_unused, st.next_unused + 1, ?_, by omega, ?_, by omega,
      by omega, ?_⟩
    · simp only [if_pos hcond]
      rw [if_neg (by omega)]
    · intro hmem
      have := h2 st.next_unused hmem
      omega
    · intro hnum hpos hfree
      rw [if_pos hnum] at hcond
      rcases hcond with hc | hc
      · omega
      · rw [hfree] at hc
        exact absurd hc (by simp)
  · push_neg at hcond
    obtain ⟨hc1, hc2⟩ := hcond
    refine ⟨if is_number name then stol name else 0,
      if st.next_unused ≤ (if is_number name then stol name else 0)
        then (if is_number name then stol name else 0) + 1
        else st.next_unused, ?_, by omega, ?_, ?_, ?_, ?_⟩
    · rw [if_neg (not_or.mpr ⟨by omega, hc2⟩), if_neg (not_or.mpr ⟨by omega, hc2⟩)]
    · intro hmem
      exact hc2 (by simpa using hmem)
    · split_ifs <;> omega
    · split_ifs <;> omega
    · intro hnum hpos hfree
      rw [if_pos hnum]

/-- The translator invariant is preserved by every translation. -/
theorem Inv_translate {st : TransState} (hinv : Inv st) (name : String) :
    Inv (translate st name).2 := by
  cases hmiss : lookupName st.name_to_name name with
  | some v =>
    simp only [translate, hmiss]
    exact hinv
  | none =>
    obtain ⟨assigned, next2, heq, hpos, hfresh, hlt, hge, _⟩ :=
      translate_miss_spec hmiss hinv
    rw [heq]
    obtain ⟨h1, h2, h3, h4⟩ := hinv
    refine ⟨by dsimp only; omega, ?_, ?_, ?_⟩
    · intro v hv
      dsimp only at hv ⊢
      rcases List.mem_cons.mp hv with rfl | hv
      · exact ⟨hpos, hlt⟩
      · have := h2 v hv
        omega
    · intro p hp
      dsimp only at hp ⊢
      rcases List.mem_cons.mp hp with rfl | hp
      · exact List.mem_cons_self _ _
      · exact List.mem_cons_of_mem _ (h3 p hp)
    · dsimp only
      simp only [List.map_cons]
      refine List.Nodup.cons ?_ h4
      intro hmem
      have : assigned ∈ st.used := by
        rcases List.mem_map.mp hmem with ⟨p, hp, hpe⟩
        rw [← hpe]
        exact h3 p hp
      exact hfresh this

/-- The invariant holds at the initial state. -/
theorem Inv_init : Inv initTrans := by
  refine ⟨le_refl 1, ?_, ?_, List.nodup_nil⟩
  · intro v hv
    exact absurd hv (List.not_mem_nil v)
  · intro p hp
    exact absurd hp (List.not_mem_nil p)

/-- The invariant holds at every reachable translator state. -/
theorem Inv_run (names : List String) : Inv (runTranslate initTrans names) := by
  suffices h : ∀ st, Inv st → Inv (runTranslate st names) from h initTrans Inv_init
  induction names with
  | nil =>
    intro st hst
    exact hst
  | cons n rest ih =>
    intro st hst
    exact ih (translate st n).2 (Inv_translate hst n)

/-- C10.  GFAToPinchTranslator::translate, at any reachable state, is a
deterministic injection into the positive integers: translating a name
twice returns the same number, distinct names hold distinct numbers, and a
fresh all-digit name whose positive value is untaken receives that value. -/
theorem C10_translate_injective (names : List String) (name n1 n2 : String)
    (v1 v2 : Int) (st : TransState) (hst : st = runTranslate initTrans names)
    (h12 : n1 ≠ n2)
    (hl1 : lookupName st.name_to_name n1 = some v1)
    (hl2 : lookupName st.name_to_name n2 = some v2)
    (hmiss : lookupName st.name_to_name name = none)
    (hnum : is_number name = true) (hpos : 0 < stol name)
    (hfree : st.used.contains (stol name) = false) :
    (translate st name).1 = (translate (translate st name).2 name).1 ∧
      0 < (translate st name).1 ∧ v1 ≠ v2 ∧
      (translate st name).1 = stol name := by
  have hinv : Inv st := by
    rw [hst]
    exact Inv_run names
  obtain ⟨assigned, next2, heq, hpos', hfresh, hlt, hge, hnumc⟩ :=
    translate_miss_spec hmiss hinv
  have hlook : lookupName ((name, assigned) :: st.name_to_name) name =
      some assigned := by
    simp [lookupName]
  refine ⟨?_, ?_, ?_, ?_⟩
  · rw [heq]
    dsimp only
    simp only [translate, hlook]
  · rw [heq]
    exact hpos'
  · exact values_nodup_inj hinv.2.2.2 hl1 hl2 h12
  · rw [heq]
    exact hnumc hnum hpos hfree

/-! ### Witnesses at concrete inputs -/

theorem C1_min_distance_symmetry_witness :
    ValidPos gLin ⟨1, 0, false⟩ ∧ ValidPos gLin ⟨3, 0, false⟩ ∧
      minDistance gLin ⟨1, 0, false⟩ ⟨3, 0, false⟩ =
        minDistance gLin (flipPos gLin ⟨3, 0, false⟩)
          (flipPos gLin ⟨1, 0, false⟩) :=
  ⟨by decide, by decide,
    C1_min_distance_symmetry gLin ⟨1, 0, false⟩ ⟨3, 0, false⟩ (by decide)
      (by decide)⟩

/-- The original upper-bound claim fails when the cap is smaller than the
finite minimum distance: on the S1 graph with cap 3, the minimum distance
8 is nonnegative yet exceeds the maximum distance estimate 3. -/
theorem C2_upper_bound_counterexample :
    ValidPos gLin ⟨1, 0, false⟩ ∧ ValidPos gLin ⟨3, 0, false⟩ ∧
      0 ≤ minDistance gLin ⟨1, 0, false⟩ ⟨3, 0, false⟩ ∧
      ¬(minDistance gLin ⟨1, 0, false⟩ ⟨3, 0, false⟩ ≤
          maxDistance gLin 3 ⟨1, 0, false⟩ ⟨3, 0, false⟩) := by
  decide

theorem C2_upper_bound_amended_witness :
    maxDistance gLin 1000 ⟨1, 0, false⟩ ⟨3, 0, false⟩ ≤ (1000 : Int) ∧
      minDistance gLin ⟨1, 0, false⟩ ⟨3, 0, false⟩ ≤
        maxDistance gLin 1000 ⟨1, 0, false⟩ ⟨3, 0, false⟩ :=
  ⟨(C2_upper_bound_amended gLin 1000 ⟨1, 0, false⟩ ⟨3, 0, false⟩ (by decide)
      (by decide)).1,
    (C2_upper_bound_amended gLin 1000 ⟨1, 0, false⟩ ⟨3, 0, false⟩ (by decide)
      (by decide)).2 (by decide) (by decide)⟩

theorem C3_serialization_round_trip_witness :
    dEx.wf ∧ loadIndex (serializeIndex dEx) = some dEx :=
  ⟨by decide, C3_serialization_round_trip dEx (by decide)⟩

theorem C4_disconnected_sentinels_witness :
    ValidPos gDis ⟨1, 0, false⟩ ∧ ValidPos gDis ⟨2, 0, false⟩ ∧
      sameComponent gDis 1 2 = false ∧
      (minDistance gDis ⟨1, 0, false⟩ ⟨2, 0, false⟩ = -1 ∧
        maxDistance gDis 100 ⟨1, 0, false⟩ ⟨2, 0, false⟩ = (100 : Int)) :=
  ⟨by decide, by decide, by decide,
    C4_disconnected_sentinels gDis 100 ⟨1, 0, false⟩ ⟨2, 0, false⟩
      (by decide) (by decide) (by decide)⟩

theorem C5_overload_agreement_witness :
    minDistanceQ gLin dEx ⟨1, 0, false⟩ ⟨3, 0, false⟩ =
      minDistanceSnarls gLin (snarlOf dEx 1) (snarlOf dEx 3)
        ⟨1, 0, false⟩ ⟨3, 0, false⟩ :=
  C5_overload_agreement gLin dEx (snarlOf dEx 1) (snarlOf dEx 3)
    ⟨1, 0, false⟩ ⟨3, 0, false⟩ rfl rfl

theorem C6_snarl_length_witness :
    0 < gLin.len 3 ∧ snarlDistance gLin (1, false) (3, false) ≠ -1 ∧
      snarlLength gLin (1, false) (3, false) =
        snarlDistance gLin (1, false) (3, false) + nodeLength gLin 3 :=
  ⟨by decide, by decide,
    C6_snarl_length gLin (1, false) (3, false) (by decide) (by decide)⟩

theorem C7_snarl_distance_short_witness :
    0 < gLin.len 1 ∧ ((1, false) : Visit) ≠ (3, false) ∧
      snarlDistance gLin (1, false) (3, false) ≠ -1 ∧
      snarlDistanceShort gLin (1, false) (3, false) =
        snarlDistance gLin (1, false) (3, false) - nodeLength gLin 1 :=
  ⟨by decide, by decide, by decide,
    C7_snarl_distance_short gLin (1, false) (3, false) (by decide) (by decide)
      (by decide)⟩

theorem C9_insert_distance_min_witness :
    tindex tEx (1, false) (3, false) < tEx.dists.length ∧
      (snarlDistOf (insertDistance tEx (1, false) (3, false) 5)
            (1, false) (3, false) =
          (if snarlDistOf tEx (1, false) (3, false) = -1 then (5 : Int)
            else min (snarlDistOf tEx (1, false) (3, false)) (5 : Int)) ∧
        (snarlDistOf tEx (1, false) (3, false) = -1 ∨
          snarlDistOf (insertDistance tEx (1, false) (3, false) 5)
              (1, false) (3, false) ≤
            snarlDistOf tEx (1, false) (3, false))) :=
  ⟨by decide, C9_insert_distance_min tEx (1, false) (3, false) 5 (by decide)⟩

theorem C10_translate_injective_witness :
    (translate (runTranslate initTrans ["5", "x"]) "7").1 =
        (translate (translate (runTranslate initTrans ["5", "x"]) "7").2
          "7").1 ∧
      0 < (translate (runTranslate initTrans ["5", "x"]) "7").1 ∧
      (5 : Int) ≠ 6 ∧
      (translate (runTranslate initTrans ["5", "x"]) "7").1 = stol "7" :=
  C10_translate_injective ["5", "x"] "7" "5" "x" 5 6
    (runTranslate initTrans ["5", "x"]) rfl (by decide) (by decide)
    (by decide) (by decide) (by decide) (by decide) (by decide)

end VG

